import Mathlib

/-!
Verification development for the AITimeline conversation-discovery,
turn-identity and annotation-storage core.

JavaScript objects used as string-keyed dictionaries are embedded as
association lists `List (String × α)` in property-insertion order, with
the JS semantics: property read returns the (unique) entry, assignment
updates an existing property in place or appends a new one at the end,
and `delete` removes the entry.  Well-formed JS objects never contain a
duplicate key; `NodupKeys` states that representation invariant.
-/

namespace AITimeline

/-- Read of property `k` on a JS object (returns the first entry; unique
under `NodupKeys`).  Mirrors `obj[k]`. -/
def lookupJS {α : Type} (m : List (String × α)) (k : String) : Option α :=
  match m with
  | [] => none
  | e :: rest => if e.1 = k then some e.2 else lookupJS rest k

/-- Property assignment `obj[k] = v`: update in place when the key exists,
append otherwise. -/
def setJS {α : Type} (m : List (String × α)) (k : String) (v : α) :
    List (String × α) :=
  match m with
  | [] => [(k, v)]
  | e :: rest => if e.1 = k then (k, v) :: rest else e :: setJS rest k v

/-- Property deletion `delete obj[k]`: removes the entry for `k`. -/
def eraseJS {α : Type} (m : List (String × α)) (k : String) :
    List (String × α) :=
  match m with
  | [] => []
  | e :: rest => if e.1 = k then rest else e :: eraseJS rest k

/-- The JS-object representation invariant: no duplicate property keys. -/
def NodupKeys {α : Type} (m : List (String × α)) : Prop :=
  (m.map Prod.fst).Nodup

theorem nodupKeys_cons {α : Type} {e : String × α} {rest : List (String × α)}
    (h : NodupKeys (e :: rest)) :
    e.1 ∉ rest.map Prod.fst ∧ NodupKeys rest := by
  unfold NodupKeys at h ⊢
  rw [List.map_cons] at h
  exact ⟨(List.nodup_cons.mp h).1, (List.nodup_cons.mp h).2⟩

theorem nodupKeys_cons_of {α : Type} {e : String × α}
    {rest : List (String × α)} (h1 : e.1 ∉ rest.map Prod.fst)
    (h2 : NodupKeys rest) : NodupKeys (e :: rest) := by
  unfold NodupKeys at h2 ⊢
  rw [List.map_cons]
  exact List.nodup_cons.mpr ⟨h1, h2⟩

theorem lookupJS_eq_none_of_not_mem {α : Type} {m : List (String × α)}
    {k : String} (h : k ∉ m.map Prod.fst) : lookupJS m k = none := by
  induction m with
  | nil => rfl
  | cons e rest ih =>
    simp only [List.map_cons, List.mem_cons, not_or] at h
    simp only [lookupJS, if_neg (fun he : e.1 = k => h.1 he.symm)]
    exact ih h.2

theorem lookupJS_setJS_self {α : Type} (m : List (String × α)) (k : String)
    (v : α) : lookupJS (setJS m k v) k = some v := by
  induction m with
  | nil => simp [setJS, lookupJS]
  | cons e rest ih =>
    by_cases h : e.1 = k
    · simp [setJS, h, lookupJS]
    · simp [setJS, h, lookupJS, ih]

theorem lookupJS_setJS_ne {α : Type} (m : List (String × α)) (k k' : String)
    (v : α) (h : k' ≠ k) : lookupJS (setJS m k v) k' = lookupJS m k' := by
  have hk : ¬ (k = k') := fun hk => h hk.symm
  induction m with
  | nil =>
    simp only [setJS, lookupJS]
    rw [if_neg hk]
  | cons e rest ih =>
    by_cases he : e.1 = k
    · simp only [setJS, if_pos he, lookupJS]
      rw [if_neg hk, if_neg (fun h' : e.1 = k' => hk (he ▸ h'))]
    · simp only [setJS, if_neg he, lookupJS]
      by_cases he' : e.1 = k'
      · rw [if_pos he', if_pos he']
      · rw [if_neg he', if_neg he', ih]

theorem lookupJS_eraseJS_self {α : Type} (m : List (String × α)) (k : String)
    (hnd : NodupKeys m) : lookupJS (eraseJS m k) k = none := by
  induction m with
  | nil => rfl
  | cons e rest ih =>
    obtain ⟨hhd, hnd'⟩ := nodupKeys_cons hnd
    by_cases h : e.1 = k
    · simp only [eraseJS, if_pos h]
      exact lookupJS_eq_none_of_not_mem (h ▸ hhd)
    · simp only [eraseJS, if_neg h, lookupJS, if_neg h]
      exact ih hnd'

theorem lookupJS_eraseJS_ne {α : Type} (m : List (String × α)) (k k' : String)
    (h : k' ≠ k) : lookupJS (eraseJS m k) k' = lookupJS m k' := by
  induction m with
  | nil => rfl
  | cons e rest ih =>
    by_cases he : e.1 = k
    · simp only [eraseJS, if_pos he, lookupJS]
      rw [if_neg (fun h' : e.1 = k' => h ((he.symm.trans h').symm))]
    · simp only [eraseJS, if_neg he, lookupJS]
      by_cases he' : e.1 = k'
      · rw [if_pos he', if_pos he']
      · rw [if_neg he', if_neg he', ih]

theorem map_fst_setJS {α : Type} (m : List (String × α)) (k : String) (v : α)
    (h : k ∉ m.map Prod.fst) :
    (setJS m k v).map Prod.fst = m.map Prod.fst ++ [k] := by
  induction m with
  | nil => rfl
  | cons e rest ih =>
    simp only [List.map_cons, List.mem_cons, not_or] at h
    simp only [setJS, if_neg (fun he : e.1 = k => h.1 he.symm), List.map_cons,
      ih h.2, List.cons_append]

theorem map_fst_setJS_mem {α : Type} (m : List (String × α)) (k : String)
    (v : α) (h : k ∈ m.map Prod.fst) :
    (setJS m k v).map Prod.fst = m.map Prod.fst := by
  induction m with
  | nil => simp at h
  | cons e rest ih =>
    by_cases he : e.1 = k
    · simp [setJS, he]
    · simp only [List.map_cons, List.mem_cons] at h
      rcases h with h | h
      · exact absurd h.symm he
      · simp only [setJS, if_neg he, List.map_cons, ih h]

theorem nodupKeys_setJS {α : Type} (m : List (String × α)) (k : String)
    (v : α) (hnd : NodupKeys m) : NodupKeys (setJS m k v) := by
  by_cases h : k ∈ m.map Prod.fst
  · unfold NodupKeys at hnd ⊢
    rw [map_fst_setJS_mem m k v h]
    exact hnd
  · unfold NodupKeys at hnd ⊢
    rw [map_fst_setJS m k v h]
    refine List.Nodup.append hnd (List.nodup_singleton k) ?_
    intro a ha hb
    simp only [List.mem_singleton] at hb
    exact h (hb ▸ ha)

theorem map_fst_eraseJS_subset {α : Type} (m : List (String × α))
    (k : String) : ∀ a ∈ (eraseJS m k).map Prod.fst, a ∈ m.map Prod.fst := by
  induction m with
  | nil => intro a ha; exact ha
  | cons e rest ih =>
    intro a ha
    by_cases he : e.1 = k
    · simp only [eraseJS, if_pos he] at ha
      exact List.mem_cons_of_mem _ ha
    · simp only [eraseJS, if_neg he, List.map_cons, List.mem_cons] at ha ⊢
      rcases ha with ha | ha
      · exact Or.inl ha
      · exact Or.inr (ih a ha)

theorem nodupKeys_eraseJS {α : Type} (m : List (String × α)) (k : String)
    (hnd : NodupKeys m) : NodupKeys (eraseJS m k) := by
  induction m with
  | nil => exact hnd
  | cons e rest ih =>
    obtain ⟨hhd, hnd'⟩ := nodupKeys_cons hnd
    by_cases h : e.1 = k
    · simpa only [eraseJS, if_pos h] using hnd'
    · simp only [eraseJS, if_neg h]
      exact nodupKeys_cons_of
        (fun hmem => hhd (map_fst_eraseJS_subset rest k e.1 hmem)) (ih hnd')

theorem setJS_setJS {α : Type} (m : List (String × α)) (k : String)
    (v w : α) : setJS (setJS m k v) k w = setJS m k w := by
  induction m with
  | nil => simp [setJS]
  | cons e rest ih =>
    by_cases h : e.1 = k
    · simp [setJS, h]
    · simp [setJS, h, ih]

theorem setJS_of_lookup_none {α : Type} (m : List (String × α)) (k : String)
    (v : α) (h : lookupJS m k = none) : setJS m k v = m ++ [(k, v)] := by
  induction m with
  | nil => rfl
  | cons e rest ih =>
    by_cases he : e.1 = k
    · simp [lookupJS, he] at h
    · simp only [lookupJS, if_neg he] at h
      simp [setJS, he, ih h]

theorem eraseJS_append_singleton {α : Type} (m : List (String × α))
    (k : String) (v : α) (h : lookupJS m k = none) :
    eraseJS (m ++ [(k, v)]) k = m := by
  induction m with
  | nil => simp [eraseJS]
  | cons e rest ih =>
    by_cases he : e.1 = k
    · simp [lookupJS, he] at h
    · simp only [lookupJS, if_neg he] at h
      simp [eraseJS, he, ih h]

theorem isSome_lookupJS_setJS {α : Type} (m : List (String × α))
    (k k' : String) (v : α) (h : (lookupJS m k).isSome) :
    (lookupJS (setJS m k v) k').isSome = (lookupJS m k').isSome := by
  by_cases hk : k' = k
  · subst hk
    rw [lookupJS_setJS_self]
    simpa using h
  · rw [lookupJS_setJS_ne m k k' v hk]

theorem exists_getLast?_of_ne_nil {α : Type} {l : List α} (h : l ≠ []) :
    ∃ a, l.getLast? = some a := by
  rcases List.eq_nil_or_concat l with rfl | ⟨L, b, rfl⟩
  · exact absurd rfl h
  · rw [List.concat_eq_append]
    exact ⟨b, List.getLast?_concat L⟩

theorem mem_of_getLast?_eq {α : Type} {l : List α} {a : α}
    (h : l.getLast? = some a) : a ∈ l := by
  rcases List.eq_nil_or_concat l with rfl | ⟨L, b, rfl⟩
  · simp at h
  · rw [List.concat_eq_append, List.getLast?_concat] at h
    cases h
    simp

/-!
Conversation Container Locator.

The DOM is embedded as the infinite tree of child-index paths: a node is
the `List Nat` of child indices leading to it from the document root
(which is `[]`).  A node `a` is a strict ancestor of `b` exactly when the
path of `a` is a proper prefix of the path of `b`.

Modelled from the spec: the `ContainerFinder` module itself is not part of
the provided sources (only its call sites in the site adapters, e.g.
`DeepSeekAdapter.findConversationContainer`, appear there), so the
algorithm below follows the specification text: collect the ancestor-path
(root→element) for every matched element, compute the longest common
prefix of all paths, and return the last node of that common prefix; zero
matches yield no container.
-/

namespace ContainerFinder

/-- Longest common prefix of two lists. -/
def lcp2 {α : Type} [DecidableEq α] : List α → List α → List α
  | x :: xs, y :: ys => if x = y then x :: lcp2 xs ys else []
  | _, _ => []

/-- Modelled from the spec: the ancestor path of an element, listed from
the document root down to (and excluding) the element itself. -/
def ancestorPath (p : List Nat) : List (List Nat) :=
  (List.range p.length).map (fun i => p.take i)

/-- Modelled from the spec: `ContainerFinder.findConversationContainer`,
absent from the provided sources.  Collect every matched element's
ancestor path, fold the longest-common-prefix over them, and return the
last node of the common prefix; no matches means no container. -/
def findConversationContainer (elems : List (List Nat)) :
    Option (List Nat) :=
  match elems with
  | [] => none
  | m :: ms => ((ms.map ancestorPath).foldl lcp2 (ancestorPath m)).getLast?

end ContainerFinder

theorem lcp2_prefix_left {α : Type} [DecidableEq α] (xs ys : List α) :
    ContainerFinder.lcp2 xs ys <+: xs := by
  induction xs generalizing ys with
  | nil => cases ys <;> exact List.nil_prefix
  | cons x xs ih =>
    cases ys with
    | nil => exact List.nil_prefix
    | cons y ys =>
      by_cases h : x = y
      · simp only [ContainerFinder.lcp2, if_pos h]
        exact List.cons_prefix_cons.mpr ⟨rfl, ih ys⟩
      · simp only [ContainerFinder.lcp2, if_neg h]
        exact List.nil_prefix

theorem lcp2_prefix_right {α : Type} [DecidableEq α] (xs ys : List α) :
    ContainerFinder.lcp2 xs ys <+: ys := by
  induction xs generalizing ys with
  | nil => cases ys <;> exact List.nil_prefix
  | cons x xs ih =>
    cases ys with
    | nil => exact List.nil_prefix
    | cons y ys =>
      by_cases h : x = y
      · simp only [ContainerFinder.lcp2, if_pos h]
        exact List.cons_prefix_cons.mpr ⟨h, ih ys⟩
      · simp only [ContainerFinder.lcp2, if_neg h]
        exact List.nil_prefix

theorem prefix_lcp2 {α : Type} [DecidableEq α] {zs xs ys : List α}
    (h1 : zs <+: xs) (h2 : zs <+: ys) : zs <+: ContainerFinder.lcp2 xs ys := by
  induction zs generalizing xs ys with
  | nil => exact List.nil_prefix
  | cons z zs ih =>
    cases xs with
    | nil => exact absurd (List.prefix_nil.mp h1) (by simp)
    | cons x xs =>
      cases ys with
      | nil => exact absurd (List.prefix_nil.mp h2) (by simp)
      | cons y ys =>
        obtain ⟨hzx, h1'⟩ := List.cons_prefix_cons.mp h1
        obtain ⟨hzy, h2'⟩ := List.cons_prefix_cons.mp h2
        have hxy : x = y := hzx.symm.trans hzy
        simp only [ContainerFinder.lcp2, if_pos hxy]
        exact List.cons_prefix_cons.mpr ⟨hzx, ih h1' h2'⟩

theorem foldl_lcp2_prefix_acc {α : Type} [DecidableEq α]
    (l : List (List α)) (acc : List α) :
    l.foldl ContainerFinder.lcp2 acc <+: acc := by
  induction l generalizing acc with
  | nil => exact List.prefix_refl acc
  | cons a l ih =>
    exact (ih (ContainerFinder.lcp2 acc a)).trans (lcp2_prefix_left acc a)

theorem foldl_lcp2_prefix_mem {α : Type} [DecidableEq α]
    {l : List (List α)} {b : List α} (hb : b ∈ l) (acc : List α) :
    l.foldl ContainerFinder.lcp2 acc <+: b := by
  induction l generalizing acc with
  | nil => simp at hb
  | cons a l ih =>
    rcases List.mem_cons.mp hb with rfl | hb'
    · exact (foldl_lcp2_prefix_acc l _).trans (lcp2_prefix_right acc b)
    · exact ih hb' _

theorem prefix_foldl_lcp2 {α : Type} [DecidableEq α] {z acc : List α}
    {l : List (List α)} (h1 : z <+: acc) (h2 : ∀ b ∈ l, z <+: b) :
    z <+: l.foldl ContainerFinder.lcp2 acc := by
  induction l generalizing acc with
  | nil => exact h1
  | cons a l ih =>
    exact ih (prefix_lcp2 h1 (h2 a (List.mem_cons_self a l)))
      (fun b hb => h2 b (List.mem_cons_of_mem a hb))

theorem prefix_take_eq {d p : List Nat} (h : d <+: p) {i : Nat}
    (hi : i ≤ d.length) : d.take i = p.take i := by
  obtain ⟨t, rfl⟩ := h
  exact (List.take_append_of_le_length hi).symm

theorem mem_ancestorPath {d p : List Nat} :
    d ∈ ContainerFinder.ancestorPath p ↔ d <+: p ∧ d ≠ p := by
  constructor
  · intro h
    obtain ⟨i, hi, heq⟩ := List.mem_map.mp h
    have hilt : i < p.length := List.mem_range.mp hi
    subst heq
    refine ⟨ List.take_prefix i p, fun he => ?_⟩
    have hl := congrArg List.length he
    rw [List.length_take] at hl
    omega
  · rintro ⟨hpre, hne⟩
    refine List.mem_map.mpr ⟨d.length, List.mem_range.mpr ?_, ?_⟩
    · exact lt_of_le_of_ne hpre.length_le (fun h => hne (hpre.eq_of_length h))
    · exact (List.prefix_iff_eq_take.mp hpre).symm

theorem rangeMap_mono {α : Type} (f : Nat → α) {a b : Nat} (h : a ≤ b) :
    (List.range a).map f <+: (List.range b).map f := by
  have hr : List.range a = (List.range b).take a := by
    rw [List.take_range, min_eq_left h]
  rw [hr, List.map_take]
  exact List.take_prefix a ((List.range b).map f)

theorem prefix_ancestorPath_eq {L : List (List Nat)} {p : List Nat}
    (h : L <+: ContainerFinder.ancestorPath p) :
    L = (List.range L.length).map (fun i => p.take i) := by
  have hlen : L.length ≤ p.length := by
    have := h.length_le
    simpa [ContainerFinder.ancestorPath] using this
  have heq := List.prefix_iff_eq_take.mp h
  rw [ContainerFinder.ancestorPath, ← List.map_take, List.take_range,
    min_eq_left hlen] at heq
  exact heq

theorem getLast?_rangeMap {α : Type} (f : Nat → α) {n : Nat} (h : 0 < n) :
    ((List.range n).map f).getLast? = some (f (n - 1)) := by
  cases n with
  | zero => omega
  | succ k =>
    rw [List.range_succ, List.map_append, List.map_singleton,
      List.getLast?_concat]
    rfl

theorem singleton_nil_prefix_ancestorPath {p : List Nat} (h : p ≠ []) :
    [([] : List Nat)] <+: ContainerFinder.ancestorPath p := by
  cases p with
  | nil => exact absurd rfl h
  | cons x xs =>
    rw [ContainerFinder.ancestorPath]
    have : (x :: xs).length = xs.length + 1 := rfl
    rw [this, List.range_succ_eq_map, List.map_cons]
    exact List.cons_prefix_cons.mpr ⟨by simp, List.nil_prefix⟩

/-- C1: for a page where the user-message selector matches N ≥ 1 elements
(all proper descendants of the document root), the container computed by
`findConversationContainer` is a strict DOM ancestor of every matched
element and is the deepest node with that property (the last node of the
longest common prefix of the root-to-element ancestor paths); with zero
matches no container is returned. -/
theorem findConversationContainer_lca_correct :
    ContainerFinder.findConversationContainer [] = none ∧
    ∀ elems : List (List Nat), elems ≠ [] → (∀ p ∈ elems, p ≠ []) →
      ∃ c, ContainerFinder.findConversationContainer elems = some c ∧
        (∀ p ∈ elems, c <+: p ∧ c ≠ p) ∧
        (∀ d : List Nat, (∀ p ∈ elems, d <+: p ∧ d ≠ p) → d <+: c) := by
  refine ⟨rfl, ?_⟩
  intro elems hne hroot
  cases elems with
  | nil => exact absurd rfl hne
  | cons m ms =>
    set L := (ms.map ContainerFinder.ancestorPath).foldl ContainerFinder.lcp2
      (ContainerFinder.ancestorPath m) with hL
    have hLpre : ∀ p ∈ m :: ms, L <+: ContainerFinder.ancestorPath p := by
      intro p hp
      rcases List.mem_cons.mp hp with rfl | hp'
      · exact foldl_lcp2_prefix_acc _ _
      · exact foldl_lcp2_prefix_mem (List.mem_map.mpr ⟨p, hp', rfl⟩) _
    have hnilpre : [([] : List Nat)] <+: L := by
      refine prefix_foldl_lcp2
        (singleton_nil_prefix_ancestorPath (hroot m (List.mem_cons_self m ms)))
        ?_
      intro b hb
      obtain ⟨p, hp, rfl⟩ := List.mem_map.mp hb
      exact singleton_nil_prefix_ancestorPath
        (hroot p (List.mem_cons_of_mem m hp))
    have hLne : L ≠ [] := by
      intro h
      rw [h] at hnilpre
      simpa using List.prefix_nil.mp hnilpre
    obtain ⟨c, hc⟩ := exists_getLast?_of_ne_nil hLne
    have hfind : ContainerFinder.findConversationContainer (m :: ms) =
        L.getLast? := rfl
    refine ⟨c, by rw [hfind, hc], ?_, ?_⟩
    · intro p hp
      have hcL : c ∈ L := mem_of_getLast?_eq hc
      exact mem_ancestorPath.mp ((hLpre p hp).subset hcL)
    · intro d hd
      have hfull : ∀ p ∈ m :: ms,
          (List.range (d.length + 1)).map (fun i => d.take i) <+:
            ContainerFinder.ancestorPath p := by
        intro p hp
        obtain ⟨hdp, hdne⟩ := hd p hp
        have hlen : d.length < p.length :=
          lt_of_le_of_ne hdp.length_le (fun h => hdne (hdp.eq_of_length h))
        have hmapeq : (List.range (d.length + 1)).map (fun i => d.take i) =
            (List.range (d.length + 1)).map (fun i => p.take i) := by
          refine List.map_congr_left ?_
          intro i hi
          have : i < d.length + 1 := List.mem_range.mp hi
          exact prefix_take_eq hdp (by omega)
        rw [hmapeq, ContainerFinder.ancestorPath]
        exact rangeMap_mono (fun i => p.take i) (by omega)
      have hfl : (List.range (d.length + 1)).map (fun i => d.take i) <+: L := by
        refine prefix_foldl_lcp2 (hfull m (List.mem_cons_self m ms)) ?_
        intro b hb
        obtain ⟨p, hp, rfl⟩ := List.mem_map.mp hb
        exact hfull p (List.mem_cons_of_mem m hp)
      have hLeq : L = (List.range L.length).map (fun i => m.take i) :=
        prefix_ancestorPath_eq (hLpre m (List.mem_cons_self m ms))
      have hLpos : 0 < L.length := List.length_pos.mpr hLne
      have hcval : c = m.take (L.length - 1) := by
        have h1 : L.getLast? = some (m.take (L.length - 1)) := by
          conv_lhs => rw [hLeq]
          exact getLast?_rangeMap (fun i => m.take i) hLpos
        rw [hc] at h1
        exact Option.some.inj h1
      have hdfullm : (List.range (d.length + 1)).map (fun i => d.take i) =
          (List.range (d.length + 1)).map (fun i => m.take i) := by
        obtain ⟨hdm, hdnem⟩ := hd m (List.mem_cons_self m ms)
        refine List.map_congr_left ?_
        intro i hi
        have : i < d.length + 1 := List.mem_range.mp hi
        exact prefix_take_eq hdm (by omega)
      have hdval : d = m.take d.length := by
        have h1 : ((List.range (d.length + 1)).map
            (fun i => d.take i)).getLast? = some (d.take d.length) := by
          have := getLast?_rangeMap (fun i => d.take i)
            (Nat.succ_pos d.length)
          simpa using this
        have h2 : ((List.range (d.length + 1)).map
            (fun i => m.take i)).getLast? = some (m.take d.length) := by
          have := getLast?_rangeMap (fun i => m.take i)
            (Nat.succ_pos d.length)
          simpa using this
        rw [hdfullm, h2] at h1
        have := Option.some.inj h1
        rw [this]
        exact (List.take_length d).symm
      have hlenle : d.length + 1 ≤ L.length := by
        have := hfl.length_le
        simpa using this
      rw [hdval, hcval]
      have htt : m.take d.length = (m.take (L.length - 1)).take d.length := by
        rw [List.take_take, min_eq_left (by omega)]
      rw [htt]
      exact List.take_prefix d.length (m.take (L.length - 1))

/-- Witness for C1: two sibling message elements below the node `[0]` of a
concrete document; the computed container is an ancestor of both and the
deepest common ancestor. -/
theorem findConversationContainer_lca_correct_witness :
    ∃ c, ContainerFinder.findConversationContainer [[0, 0], [0, 1]] = some c ∧
      (∀ p ∈ [[0, 0], [0, 1]], c <+: p ∧ c ≠ p) ∧
      (∀ d : List Nat,
        (∀ p ∈ [[0, 0], [0, 1]], d <+: p ∧ d ≠ p) → d <+: c) :=
  findConversationContainer_lca_correct.2 [[0, 0], [0, 1]] (by decide)
    (by decide)

/-!
Turn-key lookup for stored (possibly legacy) keys.

JavaScript stored keys are either platform identifier strings or legacy
numeric positional indices; `JSKey` embeds that union.  Markers are
abstract values; the turn-key map (`markerMap` in the source, a JS `Map`
from turn id to marker) is an association list over the rendered turn-id
strings.
-/

/-- A stored node key as persisted by the extension: either a stable
platform identifier (string) or a legacy positional index (number). -/
inductive JSKey where
  | str : String → JSKey
  | num : Int → JSKey
deriving DecidableEq, Repr

/-- String interpolation of a stored key, as a JS template literal does. -/
def JSKey.render : JSKey → String
  | .str s => s
  | .num n => toString n

/-- Turn id built by the doubao adapter from a stored key:
`doubao-` followed by the interpolated key. -/
def doubaoTurnId (k : JSKey) : String := "doubao-" ++ k.render

namespace DoubaoAdapter

/-- Embedding of `DoubaoAdapter.findMarkerByStoredIndex`: exact lookup of
the derived turn id in the turn-key map first, positional fallback into
the marker array only for an in-range numeric key, otherwise null. -/
def findMarkerByStoredIndex {M : Type} (storedKey : Option JSKey)
    (markers : List M) (markerMap : List (String × M)) : Option M :=
  match storedKey with
  | none => none
  | some k =>
    match lookupJS markerMap (doubaoTurnId k) with
    | some marker => some marker
    | none =>
      match k with
      | .num n =>
          if 0 ≤ n ∧ n < (markers.length : Int) then markers.get? n.toNat
          else none
      | .str _ => none

end DoubaoAdapter

namespace SidebarStarredManager

/-- Embedding of `SidebarStarredManager.findMarkerByNodeKey` for a
timeline whose adapter provides `findMarkerByStoredIndex` (the doubao
adapter does): the lookup is delegated to the adapter. -/
def findMarkerByNodeKey {M : Type} (storedKey : Option JSKey)
    (markers : List M) (markerMap : List (String × M)) : Option M :=
  DoubaoAdapter.findMarkerByStoredIndex storedKey markers markerMap

end SidebarStarredManager

/-- C2: the stored-key lookup first attempts an exact match of the derived
turn id against the current turn-key map; only with no exact match and a
numeric key `k` with `0 ≤ k <` number of matches does it return the turn at
position `k`; in every other case (including a null key) it returns null,
and `findMarkerByNodeKey` delegates to the adapter lookup. -/
theorem findMarkerByStoredIndex_lookup_policy {M : Type} (markers : List M)
    (markerMap : List (String × M)) (k : JSKey) :
    (∀ m, lookupJS markerMap (doubaoTurnId k) = some m →
      DoubaoAdapter.findMarkerByStoredIndex (some k) markers markerMap =
        some m) ∧
    (lookupJS markerMap (doubaoTurnId k) = none →
      ∀ n : Int, k = JSKey.num n → 0 ≤ n → n < (markers.length : Int) →
        DoubaoAdapter.findMarkerByStoredIndex (some k) markers markerMap =
          markers.get? n.toNat) ∧
    (lookupJS markerMap (doubaoTurnId k) = none →
      (∀ n : Int, k = JSKey.num n → ¬ (0 ≤ n ∧ n < (markers.length : Int))) →
        DoubaoAdapter.findMarkerByStoredIndex (some k) markers markerMap =
          none) ∧
    (DoubaoAdapter.findMarkerByStoredIndex (none : Option JSKey) markers
      markerMap = none) ∧
    (SidebarStarredManager.findMarkerByNodeKey (some k) markers markerMap =
      DoubaoAdapter.findMarkerByStoredIndex (some k) markers markerMap) := by
  refine ⟨?_, ?_, ?_, rfl, rfl⟩
  · intro m hm
    simp [DoubaoAdapter.findMarkerByStoredIndex, hm]
  · intro hnone n hk h0 hlt
    subst hk
    simp [DoubaoAdapter.findMarkerByStoredIndex, hnone, h0, hlt]
  · intro hnone hout
    cases k with
    | str s => simp [DoubaoAdapter.findMarkerByStoredIndex, hnone]
    | num n =>
      have := hout n rfl
      simp [DoubaoAdapter.findMarkerByStoredIndex, hnone, this]

/-- Witness for C2: a concrete marker map containing the derived turn id
`doubao-a1`; the exact match is returned. -/
theorem findMarkerByStoredIndex_lookup_policy_witness :
    DoubaoAdapter.findMarkerByStoredIndex (some (JSKey.str "a1")) [10, 20]
      [("doubao-a1", 7)] = some 7 :=
  (findMarkerByStoredIndex_lookup_policy [10, 20] [("doubao-a1", 7)]
    (JSKey.str "a1")).1 7 (by decide)

/-!
Provisional → stable key reconciliation poll
(`ChatTimeRecorder._pollForRealId`).

The successive DOM observations are abstracted as an environment
`env : Nat → Option String` giving, for the attempt scheduled with a given
retry count, the node id generated for the turn at the expected index
(`none` when the element is no longer present).  The pending provisional
record is assumed to stay set until the poll itself clears it; every
terminal branch of the source sets `_pendingRecord = null`.
-/

/-- Suffix test `s.endsWith suffix` of JS strings. -/
def jsEndsWith (s suffix : String) : Bool :=
  List.isSuffixOf suffix.toList s.toList

/-- A node id counts as real when it does not end in `-` followed by the
expected index (mirrors `!nodeId.endsWith(`-${expectedIndex}`)`). -/
def hasRealId (nodeId : String) (expectedIndex : Nat) : Bool :=
  ! jsEndsWith nodeId ("-" ++ toString expectedIndex)

/-- Fixed polling interval of `_pollForRealId`, in milliseconds. -/
def POLL_INTERVAL_MS : Nat := 500

/-- Outcome of the reconciliation poll: either a key migration to the
discovered real id was triggered, or no migration happened (exhaustion,
element detached) and the turn keeps its provisional key. -/
inductive PollResult where
  | migrated : String → PollResult
  | noMigration : PollResult
deriving DecidableEq, Repr

namespace ChatTimeRecorder

/-- Embedding of `ChatTimeRecorder._pollForRealId`: gives up once
`retryCount > 10`, abandons when the element disappears, migrates on the
first real id, otherwise reschedules with `retryCount + 1`.  The second
component counts the timeout callbacks actually executed. -/
def pollForRealId (env : Nat → Option String) (expectedIndex : Nat)
    (retryCount : Nat) : PollResult × Nat :=
  if _h : retryCount > 10 then (.noMigration, 0)
  else
    match env retryCount with
    | none => (.noMigration, 1)
    | some nodeId =>
      if hasRealId nodeId expectedIndex then (.migrated nodeId, 1)
      else
        let r := pollForRealId env expectedIndex (retryCount + 1)
        (r.1, r.2 + 1)
termination_by 11 - retryCount
decreasing_by omega

end ChatTimeRecorder

theorem pollForRealId_aux (fuel : Nat) :
    ∀ env expectedIndex retryCount, 11 - retryCount ≤ fuel →
      (ChatTimeRecorder.pollForRealId env expectedIndex retryCount).2 ≤
        11 - retryCount ∧
      ((∀ k, k ≤ 10 → ∀ s, env k = some s →
          hasRealId s expectedIndex = false) →
        (ChatTimeRecorder.pollForRealId env expectedIndex retryCount).1 =
          PollResult.noMigration) := by
  induction fuel with
  | zero =>
    intro env expectedIndex retryCount hfuel
    have hgt : retryCount > 10 := by omega
    rw [ChatTimeRecorder.pollForRealId, dif_pos hgt]
    exact ⟨Nat.zero_le _, fun _ => rfl⟩
  | succ fuel ih =>
    intro env expectedIndex retryCount hfuel
    by_cases hgt : retryCount > 10
    · rw [ChatTimeRecorder.pollForRealId, dif_pos hgt]
      exact ⟨Nat.zero_le _, fun _ => rfl⟩
    · rw [ChatTimeRecorder.pollForRealId, dif_neg hgt]
      split
      · refine ⟨?_, fun _ => rfl⟩
        show 1 ≤ 11 - retryCount
        omega
      · rename_i nodeId henv
        split
        · rename_i hreal
          refine ⟨?_, fun hexh => ?_⟩
          · show 1 ≤ 11 - retryCount
            omega
          · have hfalse := hexh retryCount (by omega) nodeId henv
            rw [hfalse] at hreal
            cases hreal
        · have hih := ih env expectedIndex (retryCount + 1) (by omega)
          refine ⟨?_, fun hexh => ?_⟩
          · show (ChatTimeRecorder.pollForRealId env expectedIndex
              (retryCount + 1)).2 + 1 ≤ 11 - retryCount
            have := hih.1
            omega
          · show (ChatTimeRecorder.pollForRealId env expectedIndex
              (retryCount + 1)).1 = PollResult.noMigration
            exact hih.2 hexh

/-- C3: the provisional-to-stable reconciliation poll runs at a fixed
500 ms interval, executes at most 11 timeout callbacks from a fresh start
(it stops as soon as `retryCount` exceeds 10), and when no observation up
to retry 10 ever shows a real id it performs no key migration, so the turn
keeps its provisional key; the recursion is total, so polling always
terminates. -/
theorem pollForRealId_bounded_exhaustion (env : Nat → Option String)
    (expectedIndex : Nat) :
    POLL_INTERVAL_MS = 500 ∧
    (ChatTimeRecorder.pollForRealId env expectedIndex 0).2 ≤ 11 ∧
    ((∀ k, k ≤ 10 → ∀ s, env k = some s →
        hasRealId s expectedIndex = false) →
      (ChatTimeRecorder.pollForRealId env expectedIndex 0).1 =
        PollResult.noMigration) := by
  have h := pollForRealId_aux 11 env expectedIndex 0 (by omega)
  exact ⟨rfl, h.1, h.2⟩

/-- Witness for C3: an environment that always reports the provisional
index-derived id `gemini-0`; the poll exhausts its attempts without
migrating and within the bounded number of callbacks. -/
theorem pollForRealId_bounded_exhaustion_witness :
    (ChatTimeRecorder.pollForRealId (fun _ => some "gemini-0") 0 0).1 =
      PollResult.noMigration ∧
    (ChatTimeRecorder.pollForRealId (fun _ => some "gemini-0") 0 0).2 ≤ 11 :=
  ⟨(pollForRealId_bounded_exhaustion (fun _ => some "gemini-0") 0).2.2
      (fun _ _ s hs => by cases hs; decide),
    (pollForRealId_bounded_exhaustion (fun _ => some "gemini-0") 0).2.1⟩

/-!
Per-conversation time store (`ChatTimeStorageManager`, storage key
`chatTimes`).  The persisted value maps a conversation key to a record
`{ createTime, lastVisit, nodes }`; `nodes` maps a turn key to its
recorded timestamp.  Optional numeric fields absent in storage are `none`.
-/

/-- One conversation's persisted time record. -/
structure ConvRecord where
  createTime : Option Nat
  lastVisit : Option Nat
  nodes : List (String × Nat)
deriving DecidableEq, Repr

/-- The whole `chatTimes` store. -/
abbrev ChatTimes := List (String × ConvRecord)

/-- JS truthiness of an optional numeric field (absent and `0` are both
falsy). -/
def truthyTime : Option Nat → Bool
  | none => false
  | some t => t != 0

/-- Temporary-id test of `cleanupTempIds`: the regular expression
`/^[a-z]+-\d+$/i`, i.e. one or more ASCII letters, a dash, one or more
digits. -/
def isTempId (nodeId : String) : Bool :=
  let cs := nodeId.toList
  let letters := cs.takeWhile Char.isAlpha
  let rest := cs.dropWhile Char.isAlpha
  match rest with
  | '-' :: ds => !letters.isEmpty && !ds.isEmpty && ds.all Char.isDigit
  | _ => false

namespace ChatTimeStorageManager

/-- Embedding of `ChatTimeStorageManager.migrateNodeId`: on falsy
arguments, a missing conversation record or a missing `tempId` entry it
returns `false` and leaves the store alone; otherwise it moves the
timestamp stored under `tempId` to `realId`, persists, and returns
`true`. -/
def migrateNodeId (all : ChatTimes) (conversationKey tempId realId : String) :
    ChatTimes × Bool :=
  if conversationKey = "" ∨ tempId = "" ∨ realId = "" then (all, false)
  else
    match lookupJS all conversationKey with
    | none => (all, false)
    | some r =>
      match lookupJS r.nodes tempId with
      | some timestamp =>
        (setJS all conversationKey
          { r with nodes := setJS (eraseJS r.nodes tempId) realId timestamp },
          true)
      | none => (all, false)

/-- Embedding of `ChatTimeStorageManager.setCreateTime`: creates a fresh
record for an unknown conversation, refuses to overwrite a truthy
`createTime`, fills in a falsy one. -/
def setCreateTime (all : ChatTimes) (conversationKey : String)
    (timestamp : Nat) : ChatTimes × Bool :=
  if conversationKey = "" then (all, false)
  else
    match lookupJS all conversationKey with
    | none =>
      (setJS all conversationKey
        ⟨some timestamp, some timestamp, []⟩, true)
    | some r =>
      if truthyTime r.createTime then (all, false)
      else
        (setJS all conversationKey { r with createTime := some timestamp },
          true)

/-- Embedding of `ChatTimeStorageManager.updateLastVisit`: updates
`lastVisit` of an existing record only, never creates one. -/
def updateLastVisit (all : ChatTimes) (conversationKey : String)
    (now : Nat) : ChatTimes × Bool :=
  if conversationKey = "" then (all, false)
  else
    match lookupJS all conversationKey with
    | none => (all, false)
    | some r =>
      (setJS all conversationKey { r with lastVisit := some now }, true)

/-- Embedding of `ChatTimeStorageManager.cleanupTempIds`: deletes the
node entries whose key matches the temporary-id pattern, reports their
number, and persists (third component) only when at least one entry was
deleted. -/
def cleanupTempIds (all : ChatTimes) (conversationKey : String) :
    ChatTimes × Nat × Bool :=
  if conversationKey = "" then (all, 0, false)
  else
    match lookupJS all conversationKey with
    | none => (all, 0, false)
    | some r =>
      let cleanedCount := (r.nodes.filter (fun e => isTempId e.1)).length
      if cleanedCount > 0 then
        (setJS all conversationKey
          { r with nodes := r.nodes.filter (fun e => !isTempId e.1) },
          cleanedCount, true)
      else (all, cleanedCount, false)

/-- Retention test of `cleanup`: a conversation survives when its
`lastVisit` is truthy and not older than `maxAge`
(mirrors `!data.lastVisit || (now - data.lastVisit > maxAge)`). -/
def keepConv (now maxAge : Nat) (r : ConvRecord) : Bool :=
  match r.lastVisit with
  | none => false
  | some t => if t = 0 then false else decide (now - t ≤ maxAge)

/-- Embedding of `ChatTimeStorageManager.cleanup`: removes every
conversation whose `lastVisit` is falsy or older than
`maxInactiveDays` days, returning the number of removed conversations. -/
def cleanup (all : ChatTimes) (now : Nat) (maxInactiveDays : Nat) :
    ChatTimes × Nat :=
  let maxAge := maxInactiveDays * 24 * 60 * 60 * 1000
  (all.filter (fun e => keepConv now maxAge e.2),
    (all.filter (fun e => ! keepConv now maxAge e.2)).length)

/-- The automatic invocation `ChatTimeStorageManager.cleanup(30)` executed
at the end of the storage module on every script load. -/
def loadCleanup (all : ChatTimes) (now : Nat) : ChatTimes × Nat :=
  cleanup all now 30

end ChatTimeStorageManager

/-- C4 (amended): running `migrateNodeId` twice with the same arguments
always leaves the store in the state produced by running it once; when
moreover `tempId ≠ realId` (the practically relevant case, since a real id
never equals the index-derived id) a successful first run moves the
timestamp unchanged from `tempId` to `realId`, deletes the `tempId` entry,
and the second run returns `false` without modifying the store. -/
theorem migrateNodeId_idempotent (all : ChatTimes) (ck temp real : String)
    (hnd : ∀ r, lookupJS all ck = some r → NodupKeys r.nodes) :
    ((ChatTimeStorageManager.migrateNodeId
        (ChatTimeStorageManager.migrateNodeId all ck temp real).1
        ck temp real).1 =
      (ChatTimeStorageManager.migrateNodeId all ck temp real).1) ∧
    (temp ≠ real →
      ∀ r ts, lookupJS all ck = some r → lookupJS r.nodes temp = some ts →
        ck ≠ "" → temp ≠ "" → real ≠ "" →
        (ChatTimeStorageManager.migrateNodeId all ck temp real).2 = true ∧
        (∃ r2, lookupJS
            (ChatTimeStorageManager.migrateNodeId all ck temp real).1 ck =
            some r2 ∧
          lookupJS r2.nodes real = some ts ∧
          lookupJS r2.nodes temp = none) ∧
        ChatTimeStorageManager.migrateNodeId
            (ChatTimeStorageManager.migrateNodeId all ck temp real).1
            ck temp real =
          ((ChatTimeStorageManager.migrateNodeId all ck temp real).1,
            false)) := by
  by_cases hg : ck = "" ∨ temp = "" ∨ real = ""
  · constructor
    · simp only [ChatTimeStorageManager.migrateNodeId, if_pos hg]
    · intro _ r ts _ _ hck htmp hrl
      rcases hg with h | h | h
      · exact absurd h hck
      · exact absurd h htmp
      · exact absurd h hrl
  · cases hr : lookupJS all ck with
    | none =>
      have hrun1 : ChatTimeStorageManager.migrateNodeId all ck temp real =
          (all, false) := by
        simp only [ChatTimeStorageManager.migrateNodeId, if_neg hg, hr]
      constructor
      · rw [hrun1, hrun1]
      · intro _ r ts hrec _ _ _ _
        exact Option.noConfusion hrec
    | some r0 =>
      have hnd0 : NodupKeys r0.nodes := hnd r0 hr
      cases ht : lookupJS r0.nodes temp with
      | none =>
        have hrun1 : ChatTimeStorageManager.migrateNodeId all ck temp real =
            (all, false) := by
          simp only [ChatTimeStorageManager.migrateNodeId, if_neg hg, hr, ht]
        constructor
        · rw [hrun1, hrun1]
        · intro _ r ts hrec hts _ _ _
          have hrr : r0 = r := Option.some.inj hrec
          subst hrr
          rw [ht] at hts
          exact Option.noConfusion hts
      | some ts0 =>
        have hrun1 : ChatTimeStorageManager.migrateNodeId all ck temp real =
            (setJS all ck
              { r0 with
                nodes := setJS (eraseJS r0.nodes temp) real ts0 }, true) := by
          simp only [ChatTimeStorageManager.migrateNodeId, if_neg hg, hr, ht]
        have hs1 : lookupJS
            (setJS all ck
              { r0 with nodes := setJS (eraseJS r0.nodes temp) real ts0 }) ck
            = some { r0 with
              nodes := setJS (eraseJS r0.nodes temp) real ts0 } :=
          lookupJS_setJS_self all ck _
        by_cases hter : temp = real
        · subst hter
          have hnone : lookupJS (eraseJS r0.nodes temp) temp = none :=
            lookupJS_eraseJS_self r0.nodes temp hnd0
          have hset : setJS (eraseJS r0.nodes temp) temp ts0 =
              eraseJS r0.nodes temp ++ [(temp, ts0)] :=
            setJS_of_lookup_none _ temp ts0 hnone
          have herase2 : eraseJS (setJS (eraseJS r0.nodes temp) temp ts0)
              temp = eraseJS r0.nodes temp := by
            rw [hset]
            exact eraseJS_append_singleton _ temp ts0 hnone
          have hlook2 : lookupJS (setJS (eraseJS r0.nodes temp) temp ts0)
              temp = some ts0 := lookupJS_setJS_self _ temp ts0
          have hrun2 : ChatTimeStorageManager.migrateNodeId
              (setJS all ck
                { r0 with nodes := setJS (eraseJS r0.nodes temp) temp ts0 })
              ck temp temp =
              (setJS
                (setJS all ck
                  { r0 with
                    nodes := setJS (eraseJS r0.nodes temp) temp ts0 })
                ck
                { r0 with nodes := setJS (eraseJS r0.nodes temp) temp ts0 },
                true) := by
            simp only [ChatTimeStorageManager.migrateNodeId, if_neg hg, hs1,
              hlook2, herase2]
          constructor
          · rw [hrun1]
            show (ChatTimeStorageManager.migrateNodeId
              (setJS all ck
                { r0 with nodes := setJS (eraseJS r0.nodes temp) temp ts0 })
              ck temp temp).1 =
              setJS all ck
                { r0 with nodes := setJS (eraseJS r0.nodes temp) temp ts0 }
            rw [hrun2]
            show setJS
              (setJS all ck
                { r0 with nodes := setJS (eraseJS r0.nodes temp) temp ts0 })
              ck
              { r0 with nodes := setJS (eraseJS r0.nodes temp) temp ts0 } =
              setJS all ck
                { r0 with nodes := setJS (eraseJS r0.nodes temp) temp ts0 }
            rw [setJS_setJS]
          · intro hne
            exact absurd rfl hne
        · have htemp2 : lookupJS
              (setJS (eraseJS r0.nodes temp) real ts0) temp = none := by
            rw [lookupJS_setJS_ne _ real temp ts0 hter]
            exact lookupJS_eraseJS_self r0.nodes temp hnd0
          have hrun2 : ChatTimeStorageManager.migrateNodeId
              (setJS all ck
                { r0 with nodes := setJS (eraseJS r0.nodes temp) real ts0 })
              ck temp real =
              (setJS all ck
                { r0 with nodes := setJS (eraseJS r0.nodes temp) real ts0 },
                false) := by
            simp only [ChatTimeStorageManager.migrateNodeId, if_neg hg, hs1,
              htemp2]
          constructor
          · rw [hrun1]
            show (ChatTimeStorageManager.migrateNodeId
              (setJS all ck
                { r0 with nodes := setJS (eraseJS r0.nodes temp) real ts0 })
              ck temp real).1 =
              setJS all ck
                { r0 with nodes := setJS (eraseJS r0.nodes temp) real ts0 }
            rw [hrun2]
          · intro _ r ts hrec hts _ _ _
            have hrr : r0 = r := Option.some.inj hrec
            subst hrr
            rw [ht] at hts
            have hts' : ts0 = ts := Option.some.inj hts
            subst hts'
            refine ⟨by rw [hrun1], ?_, ?_⟩
            · refine ⟨_, by rw [hrun1]; exact hs1, ?_, htemp2⟩
              exact lookupJS_setJS_self _ real ts0
            · rw [hrun1]
              exact hrun2

/-- Witness for C4: a concrete store where the migration succeeds; the
store after two runs equals the store after one, and the first run
reports success. -/
theorem migrateNodeId_idempotent_witness :
    ((ChatTimeStorageManager.migrateNodeId
        (ChatTimeStorageManager.migrateNodeId
          [("chat", ⟨some 5, some 6, [("gemini-0", 100)]⟩)]
          "chat" "gemini-0" "gemini-abc").1
        "chat" "gemini-0" "gemini-abc").1 =
      (ChatTimeStorageManager.migrateNodeId
        [("chat", ⟨some 5, some 6, [("gemini-0", 100)]⟩)]
        "chat" "gemini-0" "gemini-abc").1) ∧
    (ChatTimeStorageManager.migrateNodeId
      [("chat", ⟨some 5, some 6, [("gemini-0", 100)]⟩)]
      "chat" "gemini-0" "gemini-abc").2 = true := by
  have h := migrateNodeId_idempotent
    [("chat", ⟨some 5, some 6, [("gemini-0", 100)]⟩)]
    "chat" "gemini-0" "gemini-abc"
    (by
      intro r hrec
      rw [show lookupJS
          [("chat", (⟨some 5, some 6, [("gemini-0", 100)]⟩ : ConvRecord))]
          "chat" = some ⟨some 5, some 6, [("gemini-0", 100)]⟩ from by decide]
        at hrec
      have hrr : (⟨some 5, some 6, [("gemini-0", 100)]⟩ : ConvRecord) = r :=
        Option.some.inj hrec
      subst hrr
      unfold NodupKeys
      decide)
  refine ⟨h.1, ?_⟩
  exact (h.2 (by decide) ⟨some 5, some 6, [("gemini-0", 100)]⟩ 100
    (by decide) (by decide) (by decide) (by decide) (by decide)).1

/-- Counterexample for C4 as literally stated: with `tempId = realId`
(and the entry present) the first run "succeeds" yet the second run still
finds the `tempId` entry and returns `true`, not `false` — even though the
store is unchanged by the second run. -/
theorem migrateNodeId_second_run_counterexample :
    (ChatTimeStorageManager.migrateNodeId
      [("c", ⟨none, none, [("x", 7)]⟩)] "c" "x" "x").2 = true ∧
    (ChatTimeStorageManager.migrateNodeId
      (ChatTimeStorageManager.migrateNodeId
        [("c", ⟨none, none, [("x", 7)]⟩)] "c" "x" "x").1 "c" "x" "x").2 =
      true := by
  decide

/-- C6 (amended): for a conversation record whose `createTime` holds a
truthy value (non-null and non-zero), `setCreateTime` returns `false` and
leaves the store unchanged, and no `setCreateTime` call ever replaces a
truthy `createTime` anywhere in the store. -/
theorem setCreateTime_write_once (all : ChatTimes) (ck : String) (ts : Nat) :
    (∀ r t, lookupJS all ck = some r → r.createTime = some t → t ≠ 0 →
      ChatTimeStorageManager.setCreateTime all ck ts = (all, false)) ∧
    (∀ k r t, lookupJS all k = some r → r.createTime = some t → t ≠ 0 →
      ∃ r2, lookupJS (ChatTimeStorageManager.setCreateTime all ck ts).1 k =
        some r2 ∧ r2.createTime = some t) := by
  constructor
  · intro r t hr hct ht
    by_cases hck : ck = ""
    · simp only [ChatTimeStorageManager.setCreateTime, if_pos hck]
    · have htr : truthyTime r.createTime = true := by
        rw [hct]
        simp only [truthyTime, bne_iff_ne, ne_eq]
        exact ht
      simp only [ChatTimeStorageManager.setCreateTime, if_neg hck, hr,
        if_pos htr]
  · intro k r t hk hct ht
    by_cases hck : ck = ""
    · refine ⟨r, ?_, hct⟩
      simp only [ChatTimeStorageManager.setCreateTime, if_pos hck]
      exact hk
    · cases hr : lookupJS all ck with
      | none =>
        have hkk : k ≠ ck := by
          intro he
          rw [he, hr] at hk
          exact Option.noConfusion hk
        refine ⟨r, ?_, hct⟩
        simp only [ChatTimeStorageManager.setCreateTime, if_neg hck, hr]
        rw [lookupJS_setJS_ne all ck k _ hkk]
        exact hk
      | some r0 =>
        by_cases htr : truthyTime r0.createTime = true
        · refine ⟨r, ?_, hct⟩
          simp only [ChatTimeStorageManager.setCreateTime, if_neg hck, hr,
            if_pos htr]
          exact hk
        · by_cases hkk : k = ck
          · subst hkk
            rw [hr] at hk
            have hrr : r0 = r := Option.some.inj hk
            subst hrr
            rw [hct] at htr
            simp only [truthyTime, bne_iff_ne, ne_eq] at htr
            exact absurd ht htr
          · refine ⟨r, ?_, hct⟩
            simp only [ChatTimeStorageManager.setCreateTime, if_neg hck, hr,
              if_neg htr]
            rw [lookupJS_setJS_ne all ck k _ hkk]
            exact hk

/-- Witness for C6 (amended): a record with truthy `createTime = 7` is
left untouched and the call reports `false`. -/
theorem setCreateTime_write_once_witness :
    ChatTimeStorageManager.setCreateTime [("c", ⟨some 7, none, []⟩)] "c" 99 =
      ([("c", ⟨some 7, none, []⟩)], false) :=
  (setCreateTime_write_once [("c", ⟨some 7, none, []⟩)] "c" 99).1
    ⟨some 7, none, []⟩ 7 (by decide) (by decide) (by decide)

/-- Counterexample for C6 as literally stated: a record whose `createTime`
is the non-null value `0` is falsy in JS, so `setCreateTime` overwrites it
and returns `true` instead of `false`. -/
theorem setCreateTime_zero_counterexample :
    lookupJS [("c", (⟨some 0, some 0, []⟩ : ConvRecord))] "c" =
      some ⟨some 0, some 0, []⟩ ∧
    (some 0 : Option Nat) ≠ none ∧
    (ChatTimeStorageManager.setCreateTime
      [("c", ⟨some 0, some 0, []⟩)] "c" 99).2 = true ∧
    (ChatTimeStorageManager.setCreateTime
      [("c", ⟨some 0, some 0, []⟩)] "c" 99).1 ≠
      [("c", ⟨some 0, some 0, []⟩)] := by
  decide

/-- C7: `updateLastVisit` updates `lastVisit` only for an existing record;
with an empty key or no record it returns `false` and writes nothing, and
in every case the set of existing conversation records is unchanged — it
never creates one. -/
theorem updateLastVisit_never_creates (all : ChatTimes) (ck : String)
    (now : Nat) :
    (ck = "" → ChatTimeStorageManager.updateLastVisit all ck now =
      (all, false)) ∧
    (lookupJS all ck = none →
      ChatTimeStorageManager.updateLastVisit all ck now = (all, false)) ∧
    (∀ r, lookupJS all ck = some r → ck ≠ "" →
      (ChatTimeStorageManager.updateLastVisit all ck now).2 = true ∧
      lookupJS (ChatTimeStorageManager.updateLastVisit all ck now).1 ck =
        some { r with lastVisit := some now }) ∧
    (∀ k, (lookupJS (ChatTimeStorageManager.updateLastVisit all ck
        now).1 k).isSome = (lookupJS all k).isSome) := by
  refine ⟨?_, ?_, ?_, ?_⟩
  · intro hck
    simp only [ChatTimeStorageManager.updateLastVisit, if_pos hck]
  · intro hn
    by_cases hck : ck = ""
    · simp only [ChatTimeStorageManager.updateLastVisit, if_pos hck]
    · simp only [ChatTimeStorageManager.updateLastVisit, if_neg hck, hn]
  · intro r hr hck
    constructor
    · simp only [ChatTimeStorageManager.updateLastVisit, if_neg hck, hr]
    · simp only [ChatTimeStorageManager.updateLastVisit, if_neg hck, hr]
      exact lookupJS_setJS_self all ck _
  · intro k
    by_cases hck : ck = ""
    · simp only [ChatTimeStorageManager.updateLastVisit, if_pos hck]
    · cases hr : lookupJS all ck with
      | none =>
        simp only [ChatTimeStorageManager.updateLastVisit, if_neg hck, hr]
      | some r =>
        simp only [ChatTimeStorageManager.updateLastVisit, if_neg hck, hr]
        exact isSome_lookupJS_setJS all ck k _ (by rw [hr]; rfl)

/-- Witness for C7: an absent conversation key is reported as `false` with
no write, and an existing record gets its `lastVisit` updated. -/
theorem filter_bnot_eq_self {α : Type} (l : List α) (p : α → Bool)
    (h : l.filter p = []) : l.filter (fun x => !p x) = l := by
  induction l with
  | nil => rfl
  | cons a l ih =>
    rw [List.filter_cons] at h
    by_cases hp : p a
    · rw [if_pos hp] at h
      exact absurd h (by simp)
    · rw [if_neg hp] at h
      have hpa : (!p a) = true := by
        simp only [Bool.not_eq_true']
        exact Bool.not_eq_true (p a) ▸ hp
      rw [List.filter_cons, if_pos hpa, ih h]

theorem length_filter_add_bnot {α : Type} (l : List α) (p : α → Bool) :
    (l.filter p).length + (l.filter (fun x => !p x)).length = l.length := by
  induction l with
  | nil => rfl
  | cons a l ih =>
    rw [List.filter_cons, List.filter_cons]
    by_cases hp : p a
    · rw [if_pos hp, if_neg (by simp [hp])]
      simp only [List.length_cons]
      omega
    · rw [if_neg hp, if_pos (by simp [hp])]
      simp only [List.length_cons]
      omega

theorem lookupJS_filter {α : Type} (m : List (String × α)) (k : String)
    (v : α) (p : String × α → Bool) (hnd : NodupKeys m)
    (h : lookupJS m k = some v) :
    lookupJS (m.filter p) k = if p (k, v) then some v else none := by
  induction m with
  | nil => exact Option.noConfusion h
  | cons e rest ih =>
    obtain ⟨hhd, hnd'⟩ := nodupKeys_cons hnd
    obtain ⟨e1, e2⟩ := e
    by_cases he : e1 = k
    · have hv : e2 = v := by
        simp only [lookupJS, if_pos he] at h
        exact Option.some.inj h
      subst he
      subst hv
      rw [List.filter_cons]
      by_cases hp : p (e1, e2) = true
      · rw [if_pos hp, if_pos hp]
        simp [lookupJS]
      · rw [if_neg hp, if_neg hp]
        apply lookupJS_eq_none_of_not_mem
        intro hmem
        obtain ⟨q, hq, hq1⟩ := List.mem_map.mp hmem
        exact hhd (List.mem_map.mpr ⟨q, List.mem_of_mem_filter hq, hq1⟩)
    · simp only [lookupJS, if_neg he] at h
      rw [List.filter_cons]
      by_cases hp : p (e1, e2) = true
      · rw [if_pos hp]
        simp only [lookupJS, if_neg he]
        exact ih hnd' h
      · rw [if_neg hp]
        exact ih hnd' h

/-- C10: on a conversation with an existing record, `cleanupTempIds`
removes from that record's nodes exactly the entries whose key matches
the temporary-id pattern, returns their number, keeps every other node
entry and the record's `createTime` and `lastVisit`, leaves every other
conversation untouched, and persists a write exactly when at least one
entry was deleted. -/
theorem cleanupTempIds_frame (all : ChatTimes) (ck : String) (r : ConvRecord)
    (hck : ck ≠ "") (hr : lookupJS all ck = some r) :
    (ChatTimeStorageManager.cleanupTempIds all ck).2.1 =
      (r.nodes.filter (fun e => isTempId e.1)).length ∧
    lookupJS (ChatTimeStorageManager.cleanupTempIds all ck).1 ck =
      some { r with nodes := r.nodes.filter (fun e => !isTempId e.1) } ∧
    (∀ k, k ≠ ck →
      lookupJS (ChatTimeStorageManager.cleanupTempIds all ck).1 k =
        lookupJS all k) ∧
    ((ChatTimeStorageManager.cleanupTempIds all ck).2.2 = true ↔
      0 < (ChatTimeStorageManager.cleanupTempIds all ck).2.1) := by
  by_cases hpos : 0 < (r.nodes.filter (fun e => isTempId e.1)).length
  · have hrun : ChatTimeStorageManager.cleanupTempIds all ck =
        (setJS all ck
          { r with nodes := r.nodes.filter (fun e => !isTempId e.1) },
          (r.nodes.filter (fun e => isTempId e.1)).length, true) := by
      simp only [ChatTimeStorageManager.cleanupTempIds, if_neg hck, hr,
        if_pos hpos]
    rw [hrun]
    refine ⟨rfl, lookupJS_setJS_self all ck _, ?_, ?_⟩
    · intro k hk
      exact lookupJS_setJS_ne all ck k _ hk
    · simpa using hpos
  · have hzero : (r.nodes.filter (fun e => isTempId e.1)).length = 0 := by
      omega
    have hnil : r.nodes.filter (fun e => isTempId e.1) = [] :=
      List.length_eq_zero.mp hzero
    have hrun : ChatTimeStorageManager.cleanupTempIds all ck =
        (all, (r.nodes.filter (fun e => isTempId e.1)).length, false) := by
      simp only [ChatTimeStorageManager.cleanupTempIds, if_neg hck, hr,
        if_neg hpos]
    rw [hrun]
    refine ⟨rfl, ?_, fun _ _ => rfl, ?_⟩
    · rw [filter_bnot_eq_self r.nodes _ hnil]
      exact hr
    · simp [hzero]

/-- Witness for C10: a record holding one temporary node id `gemini-0`
and one stable id `abc123`; exactly the temporary entry is removed, the
other entry and the time fields survive, and the write flag is set. -/
theorem cleanupTempIds_frame_witness :
    lookupJS (ChatTimeStorageManager.cleanupTempIds
      [("c", ⟨some 1, some 2, [("gemini-0", 5), ("abc123", 6)]⟩)] "c").1
      "c" = some ⟨some 1, some 2, [("abc123", 6)]⟩ ∧
    (ChatTimeStorageManager.cleanupTempIds
      [("c", ⟨some 1, some 2, [("gemini-0", 5), ("abc123", 6)]⟩)]
      "c").2.1 = 1 := by
  have h := cleanupTempIds_frame
    [("c", ⟨some 1, some 2, [("gemini-0", 5), ("abc123", 6)]⟩)] "c"
    ⟨some 1, some 2, [("gemini-0", 5), ("abc123", 6)]⟩
    (by decide) (by decide)
  refine ⟨?_, ?_⟩
  · rw [h.2.1]
    decide
  · rw [h.1]
    decide

/-!
Star store (`StarStorageManager`, storage key `chatTimelineStars`).  The
persisted value is an array of records each carrying a `key` field;
`add` is an upsert by that field.
-/

/-- One persisted star record. -/
structure StarItem where
  key : String
  url : String
  urlWithoutProtocol : String
  nodeId : String
  question : String
  timestamp : Nat
  folderId : Option String
deriving DecidableEq, Repr

namespace StarStorageManager

/-- Embedding of `StarStorageManager.add`: ignore an item with a falsy
key; otherwise `findIndex` the first record with the same key and replace
it in place, or push the item at the end. -/
def add (items : List StarItem) (item : StarItem) : List StarItem :=
  if item.key = "" then items
  else
    match items.findIdx? (fun i => i.key == item.key) with
    | some existingIndex => items.set existingIndex item
    | none => items ++ [item]

/-- Replace-first-or-append, the recursion that `findIndex` followed by
in-place assignment or `push` implements. -/
def upsertGo (items : List StarItem) (item : StarItem) : List StarItem :=
  match items with
  | [] => [item]
  | x :: xs => if x.key = item.key then item :: xs else x :: upsertGo xs item

/-- A finite sequence of `add` calls applied in order. -/
def applyAdds (init : List StarItem) (ops : List StarItem) : List StarItem :=
  ops.foldl add init

/-- First record carrying key `k` (mirrors `items.find(...)` by key). -/
def findByKey (items : List StarItem) (k : String) : Option StarItem :=
  items.find? (fun i => i.key == k)

/-- At most one record per key. -/
def keysNodup (items : List StarItem) : Prop :=
  (items.map StarItem.key).Nodup

/-- Last item of `ops` carrying the (nonempty) key `k`; later upserts
win. -/
def lastUpsert (ops : List StarItem) (k : String) : Option StarItem :=
  match ops with
  | [] => none
  | op :: rest =>
    match lastUpsert rest k with
    | some it => some it
    | none => if op.key = k ∧ op.key ≠ "" then some op else none

end StarStorageManager

theorem add_eq_upsertGo (items : List StarItem) (item : StarItem)
    (hk : item.key ≠ "") :
    StarStorageManager.add items item =
      StarStorageManager.upsertGo items item := by
  induction items with
  | nil =>
    simp [StarStorageManager.add, hk, StarStorageManager.upsertGo,
      List.findIdx?]
  | cons x xs ih =>
    by_cases hx : x.key = item.key
    · simp only [StarStorageManager.add, if_neg hk, List.findIdx?_cons,
        if_pos (by simp [hx] : (x.key == item.key) = true)]
      simp [StarStorageManager.upsertGo, hx]
    · simp only [StarStorageManager.add, if_neg hk] at ih
      simp only [StarStorageManager.add, if_neg hk, List.findIdx?_cons,
        if_neg (by simp [hx] : ¬ (x.key == item.key) = true),
        List.findIdx?_succ]
      cases hfi : xs.findIdx? (fun i => i.key == item.key) with
      | none =>
        rw [hfi] at ih
        simp only [Option.map_none']
        simp only [StarStorageManager.upsertGo, if_neg hx, ← ih,
          List.cons_append]
      | some i =>
        rw [hfi] at ih
        simp only [Option.map_some']
        simp only [StarStorageManager.upsertGo, if_neg hx, ← ih]
        rfl

theorem findByKey_upsertGo_self (items : List StarItem) (item : StarItem) :
    StarStorageManager.findByKey (StarStorageManager.upsertGo items item)
      item.key = some item := by
  induction items with
  | nil => simp [StarStorageManager.upsertGo, StarStorageManager.findByKey]
  | cons x xs ih =>
    by_cases hx : x.key = item.key
    · simp [StarStorageManager.upsertGo, hx, StarStorageManager.findByKey]
    · simp only [StarStorageManager.upsertGo, if_neg hx]
      unfold StarStorageManager.findByKey at ih ⊢
      rw [List.find?_cons_of_neg _
        (by simp only [beq_iff_eq]; exact hx)]
      exact ih

theorem findByKey_upsertGo_ne (items : List StarItem) (item : StarItem)
    (k : String) (hne : k ≠ item.key) :
    StarStorageManager.findByKey (StarStorageManager.upsertGo items item) k =
      StarStorageManager.findByKey items k := by
  induction items with
  | nil =>
    unfold StarStorageManager.upsertGo StarStorageManager.findByKey
    rw [List.find?_cons_of_neg _
      (by simp only [beq_iff_eq]; exact fun h => hne h.symm)]
  | cons x xs ih =>
    by_cases hx : x.key = item.key
    · simp only [StarStorageManager.upsertGo, if_pos hx]
      unfold StarStorageManager.findByKey
      rw [List.find?_cons_of_neg _
        (by simp only [beq_iff_eq]; exact fun h => hne h.symm)]
      rw [List.find?_cons_of_neg _
        (by simp only [beq_iff_eq]; exact fun h => hne (hx ▸ h).symm)]
    · simp only [StarStorageManager.upsertGo, if_neg hx]
      unfold StarStorageManager.findByKey at ih ⊢
      cases hxk : (x.key == k) with
      | true =>
        rw [List.find?_cons_of_pos _ (by exact hxk),
          List.find?_cons_of_pos _ (by exact hxk)]
      | false =>
        rw [List.find?_cons_of_neg _ (by simp [hxk]),
          List.find?_cons_of_neg _ (by simp [hxk])]
        exact ih

theorem mem_map_key_upsertGo {items : List StarItem} {item : StarItem}
    {a : String}
    (h : a ∈ (StarStorageManager.upsertGo items item).map StarItem.key) :
    a ∈ items.map StarItem.key ∨ a = item.key := by
  induction items with
  | nil =>
    simp only [StarStorageManager.upsertGo, List.map_cons, List.map_nil,
      List.mem_singleton] at h
    exact Or.inr h
  | cons x xs ih =>
    by_cases hx : x.key = item.key
    · simp only [StarStorageManager.upsertGo, if_pos hx, List.map_cons,
        List.mem_cons] at h
      rcases h with h | h
      · exact Or.inr h
      · exact Or.inl (by simp only [List.map_cons, List.mem_cons]; exact Or.inr h)
    · simp only [StarStorageManager.upsertGo, if_neg hx, List.map_cons,
        List.mem_cons] at h
      rcases h with h | h
      · exact Or.inl (by simp only [List.map_cons, List.mem_cons]; exact Or.inl h)
      · rcases ih h with h' | h'
        · exact Or.inl (by simp only [List.map_cons, List.mem_cons]; exact Or.inr h')
        · exact Or.inr h'

theorem keysNodup_upsertGo (items : List StarItem) (item : StarItem)
    (hnd : StarStorageManager.keysNodup items) :
    StarStorageManager.keysNodup (StarStorageManager.upsertGo items item) := by
  induction items with
  | nil =>
    unfold StarStorageManager.keysNodup
    simp [StarStorageManager.upsertGo]
  | cons x xs ih =>
    unfold StarStorageManager.keysNodup at hnd ih ⊢
    rw [List.map_cons, List.nodup_cons] at hnd
    by_cases hx : x.key = item.key
    · simp only [StarStorageManager.upsertGo, if_pos hx, List.map_cons,
        List.nodup_cons]
      exact ⟨hx ▸ hnd.1, hnd.2⟩
    · simp only [StarStorageManager.upsertGo, if_neg hx, List.map_cons,
        List.nodup_cons]
      refine ⟨?_, ih hnd.2⟩
      intro hmem
      rcases mem_map_key_upsertGo hmem with h | h
      · exact hnd.1 h
      · exact hx h

theorem findByKey_add (items : List StarItem) (it : StarItem) (k : String) :
    StarStorageManager.findByKey (StarStorageManager.add items it) k =
      if it.key ≠ "" ∧ k = it.key then some it
      else StarStorageManager.findByKey items k := by
  by_cases hk : it.key = ""
  · rw [if_neg (fun h => h.1 hk)]
    simp [StarStorageManager.add, hk]
  · rw [add_eq_upsertGo items it hk]
    by_cases hkk : k = it.key
    · subst hkk
      rw [if_pos ⟨hk, rfl⟩]
      exact findByKey_upsertGo_self items it
    · rw [if_neg (fun h => hkk h.2)]
      exact findByKey_upsertGo_ne items it k hkk

theorem keysNodup_add (items : List StarItem) (it : StarItem)
    (hnd : StarStorageManager.keysNodup items) :
    StarStorageManager.keysNodup (StarStorageManager.add items it) := by
  by_cases hk : it.key = ""
  · simpa [StarStorageManager.add, hk] using hnd
  · rw [add_eq_upsertGo items it hk]
    exact keysNodup_upsertGo items it hnd

theorem findByKey_applyAdds (ops : List StarItem) (init : List StarItem)
    (k : String) :
    StarStorageManager.findByKey (StarStorageManager.applyAdds init ops) k =
      match StarStorageManager.lastUpsert ops k with
      | some it => some it
      | none => StarStorageManager.findByKey init k := by
  induction ops generalizing init with
  | nil => rfl
  | cons op ops ih =>
    have hstep : StarStorageManager.applyAdds init (op :: ops) =
        StarStorageManager.applyAdds (StarStorageManager.add init op) ops :=
      rfl
    rw [hstep, ih]
    cases hl : StarStorageManager.lastUpsert ops k with
    | some it => simp only [StarStorageManager.lastUpsert, hl]
    | none =>
      simp only [StarStorageManager.lastUpsert, hl]
      rw [findByKey_add]
      by_cases h1 : op.key = k ∧ op.key ≠ ""
      · rw [if_pos ⟨h1.2, h1.1.symm⟩, if_pos h1]
      · rw [if_neg h1, if_neg (fun h2 => h1 ⟨h2.2.symm, h2.1⟩)]

theorem keysNodup_applyAdds (ops : List StarItem) (init : List StarItem)
    (hnd : StarStorageManager.keysNodup init) :
    StarStorageManager.keysNodup (StarStorageManager.applyAdds init ops) := by
  induction ops generalizing init with
  | nil => exact hnd
  | cons op ops ih => exact ih _ (keysNodup_add init op hnd)

/-- C5: starting from a star collection with at most one record per key,
after any finite sequence of `add` (upsert) calls the collection has
exactly one record per distinct key, the record under each key is the
last item upserted with that key (or the initial record when the key was
never upserted), an `add` whose key already exists replaces the record at
its first index in place, and an `add` with a fresh key appends. -/
theorem starAdd_upsert_uniqueness (init : List StarItem)
    (ops : List StarItem) (hnd : StarStorageManager.keysNodup init) :
    StarStorageManager.keysNodup (StarStorageManager.applyAdds init ops) ∧
    (∀ k, StarStorageManager.findByKey
        (StarStorageManager.applyAdds init ops) k =
      match StarStorageManager.lastUpsert ops k with
      | some it => some it
      | none => StarStorageManager.findByKey init k) ∧
    (∀ items it, it.key ≠ "" →
      StarStorageManager.findByKey items it.key = none →
      StarStorageManager.add items it = items ++ [it]) ∧
    (∀ items it idx, it.key ≠ "" →
      items.findIdx? (fun i => i.key == it.key) = some idx →
      StarStorageManager.add items it = items.set idx it) := by
  refine ⟨keysNodup_applyAdds ops init hnd,
    fun k => findByKey_applyAdds ops init k, ?_, ?_⟩
  · intro items it hk hnone
    have hidx : items.findIdx? (fun i => i.key == it.key) = none := by
      rw [List.findIdx?_eq_none_iff]
      intro x hx
      have := List.find?_eq_none.mp hnone x hx
      simpa using this
    simp [StarStorageManager.add, hk, hidx]
  · intro items it idx hk hidx
    simp [StarStorageManager.add, hk, hidx]

/-- Witness for C5: two upserts with the same key `url:5`; the store ends
with exactly one record for that key, holding the second value. -/
theorem starAdd_upsert_uniqueness_witness :
    StarStorageManager.keysNodup (StarStorageManager.applyAdds []
      [⟨"url:5", "u", "uw", "n", "a", 1, none⟩,
        ⟨"url:5", "u", "uw", "n", "b", 2, none⟩]) ∧
    StarStorageManager.findByKey (StarStorageManager.applyAdds []
      [⟨"url:5", "u", "uw", "n", "a", 1, none⟩,
        ⟨"url:5", "u", "uw", "n", "b", 2, none⟩]) "url:5" =
      some ⟨"url:5", "u", "uw", "n", "b", 2, none⟩ := by
  have h := starAdd_upsert_uniqueness []
    [⟨"url:5", "u", "uw", "n", "a", 1, none⟩,
      ⟨"url:5", "u", "uw", "n", "b", 2, none⟩]
    (by unfold StarStorageManager.keysNodup; decide)
  refine ⟨h.1, ?_⟩
  rw [h.2.1 "url:5"]
  decide

/-- C9 (amended): conversation time records are removed not only by
explicit user action but also by the automatic `cleanup` that the storage
module schedules on every load (`loadCleanup`, i.e. `cleanup(30)`); a
record survives `cleanup` exactly when its `lastVisit` is truthy and not
older than the inactivity window, and the reported count is the number of
removed conversations. -/
theorem cleanup_characterization (all : ChatTimes) (now d : Nat)
    (hnd : NodupKeys all) :
    (∀ now2, ChatTimeStorageManager.loadCleanup all now2 =
      ChatTimeStorageManager.cleanup all now2 30) ∧
    (∀ k r, lookupJS all k = some r →
      lookupJS (ChatTimeStorageManager.cleanup all now d).1 k =
        if ChatTimeStorageManager.keepConv now (d * 24 * 60 * 60 * 1000) r
        then some r else none) ∧
    ((ChatTimeStorageManager.cleanup all now d).1.length +
      (ChatTimeStorageManager.cleanup all now d).2 = all.length) := by
  refine ⟨fun _ => rfl, ?_, ?_⟩
  · intro k r hr
    have := lookupJS_filter all k r
      (fun e => ChatTimeStorageManager.keepConv now
        (d * 24 * 60 * 60 * 1000) e.2) hnd hr
    simpa [ChatTimeStorageManager.cleanup] using this
  · simp only [ChatTimeStorageManager.cleanup]
    exact length_filter_add_bnot all _

/-- Witness for C9 (amended): of two records, the one with a recent truthy
`lastVisit` survives `cleanup` and the one with no `lastVisit` is removed,
with the count accounting for the removal. -/
theorem cleanup_characterization_witness :
    lookupJS (ChatTimeStorageManager.cleanup
      [("a", ⟨some 1, some 5, []⟩), ("b", ⟨some 1, none, []⟩)] 10 30).1
      "a" = some ⟨some 1, some 5, []⟩ ∧
    lookupJS (ChatTimeStorageManager.cleanup
      [("a", ⟨some 1, some 5, []⟩), ("b", ⟨some 1, none, []⟩)] 10 30).1
      "b" = none ∧
    (ChatTimeStorageManager.cleanup
      [("a", ⟨some 1, some 5, []⟩), ("b", ⟨some 1, none, []⟩)]
      10 30).1.length +
      (ChatTimeStorageManager.cleanup
        [("a", ⟨some 1, some 5, []⟩), ("b", ⟨some 1, none, []⟩)]
        10 30).2 = 2 := by
  have h := cleanup_characterization
    [("a", ⟨some 1, some 5, []⟩), ("b", ⟨some 1, none, []⟩)] 10 30
    (by unfold NodupKeys; decide)
  refine ⟨?_, ?_, h.2.2⟩
  · rw [h.2.1 "a" ⟨some 1, some 5, []⟩ (by decide)]
    decide
  · rw [h.2.1 "b" ⟨some 1, none, []⟩ (by decide)]
    decide

/-!
Schema-migration load order.

The three migrations named by the spec are sequenced by plain `await`
chains in the source, so their execution order is embedded as the trace of
migration events each routine emits: `migrateFromSyncToLocal` first awaits
`migrateLocalKeys` (the key-rename migration) and only then performs the
sync-to-local scope migration, and the load-time IIFE awaits
`migrateFromSyncToLocal` before `StarPinStorage.migrateFromLegacy` (the
record-shape migration).
-/

/-- The three schema migrations of the storage layer. -/
inductive MigEvent where
  | keyRenameM : MigEvent
  | scopeM : MigEvent
  | recordShapeM : MigEvent
deriving DecidableEq, Repr

namespace StorageAdapter

/-- Trace of `StorageAdapter.migrateLocalKeys` (the key rename
`biwhckdj` → `prompts`). -/
def migrateLocalKeysTrace : List MigEvent := [MigEvent.keyRenameM]

/-- Trace of `StorageAdapter.migrateFromSyncToLocal`: it awaits
`migrateLocalKeys` first and then performs the sync-to-local scope
migration. -/
def migrateFromSyncToLocalTrace : List MigEvent :=
  migrateLocalKeysTrace ++ [MigEvent.scopeM]

end StorageAdapter

namespace StarPinStorage

/-- Trace of `StarPinStorage.migrateFromLegacy` (single-record-per-key to
array-of-records). -/
def migrateFromLegacyTrace : List MigEvent := [MigEvent.recordShapeM]

end StarPinStorage

/-- Trace of the load-time migration IIFE:
`await StorageAdapter.migrateFromSyncToLocal();
await StarPinStorage.migrateFromLegacy();`. -/
def loadMigrationTrace : List MigEvent :=
  StorageAdapter.migrateFromSyncToLocalTrace ++
    StarPinStorage.migrateFromLegacyTrace

/-- Counterexample for C8 as stated: on load the key-rename migration
executes before the storage-scope migration, not after it, so the claimed
order scope → rename → shape does not hold. -/
theorem migrationOrder_counterexample :
    loadMigrationTrace =
      [MigEvent.keyRenameM, MigEvent.scopeM, MigEvent.recordShapeM] ∧
    ¬ (loadMigrationTrace.indexOf MigEvent.scopeM <
        loadMigrationTrace.indexOf MigEvent.keyRenameM) := by
  decide

/-- C8 (amended): on every load the key-rename migration executes first
(it is awaited at the top of the scope migration routine), then the
storage-scope migration, then the record-shape migration. -/
theorem migrationOrder_actual :
    loadMigrationTrace =
      [MigEvent.keyRenameM, MigEvent.scopeM, MigEvent.recordShapeM] ∧
    loadMigrationTrace.indexOf MigEvent.keyRenameM <
      loadMigrationTrace.indexOf MigEvent.scopeM ∧
    loadMigrationTrace.indexOf MigEvent.scopeM <
      loadMigrationTrace.indexOf MigEvent.recordShapeM := by
  decide

/-- Counterexample for C9 as literally stated: the load-time automatic
routine (`cleanup(30)`, run by the storage module on every load) deletes a
conversation's time record with no user action at all. -/
theorem cleanup_load_deletes_counterexample :
    (ChatTimeStorageManager.loadCleanup
      [("old", ⟨some 1, some 1, [("n", 1)]⟩)] 3000000000).1 = [] ∧
    (ChatTimeStorageManager.loadCleanup
      [("old", ⟨some 1, some 1, [("n", 1)]⟩)] 3000000000).2 = 1 := by
  decide

theorem updateLastVisit_never_creates_witness :
    ChatTimeStorageManager.updateLastVisit
      [("c", ⟨some 1, some 2, []⟩)] "other" 50 =
      ([("c", ⟨some 1, some 2, []⟩)], false) ∧
    lookupJS (ChatTimeStorageManager.updateLastVisit
      [("c", ⟨some 1, some 2, []⟩)] "c" 50).1 "c" =
      some ⟨some 1, some 50, []⟩ :=
  ⟨(updateLastVisit_never_creates [("c", ⟨some 1, some 2, []⟩)] "other"
      50).2.1 (by decide),
    ((updateLastVisit_never_creates [("c", ⟨some 1, some 2, []⟩)] "c"
      50).2.2.1 ⟨some 1, some 2, []⟩ (by decide) (by decide)).2⟩

end AITimeline
